import Mathlib

/-!
Verification development for the online-editor language-server proxy.

The server-side core is embedded shallowly:
* `src/server/src/fs/real.ts` (`RealFileSystem`): URI→path resolution, the
  workspace store and its security checks;
* `src/server/src/lsp/proxy.ts` (`LSPProxy`): the didOpen/didChange handlers
  and the per-URI promise-chain lock `withUriLock`;
* `src/server/src/lsp/manager.ts` (`LanguageServerManager`): analyzer reuse,
  concurrent-start coalescing, sink rebinding;
* `src/server/src/transport/websocket.ts` (`LSPWebSocketServer`): frame
  handling and disconnect;
* `src/server/src/index.ts`: the initialize response and the registered
  method/disconnect handlers.

JavaScript strings are modelled as Lean `String`; the string primitives the
code relies on (`startsWith`, split, Node's `path` module) are re-implemented
structurally over `String.data` so that every theorem can be checked by
kernel evaluation.
-/

namespace OnlineEditor

/-! ### Character-list string helpers -/

/-- Split a character list at every occurrence of `sep`.  The result is the
list of (possibly empty) chunks between separators, as in JS `split`. -/
def chSplit (sep : Char) : List Char → List (List Char)
  | [] => [[]]
  | c :: cs =>
    match chSplit sep cs with
    | [] => if c = sep then [[], []] else [[c]]
    | g :: gs => if c = sep then [] :: g :: gs else (c :: g) :: gs

/-- Predicate `chLeads pre s` is true when `pre` is a leading run of `s`. -/
def chLeads : List Char → List Char → Bool
  | [], _ => true
  | _ :: _, [] => false
  | a :: as, b :: bs => a = b && chLeads as bs

/-- Models JS `s.startsWith(pre)` / the `String.prototype.startsWith` calls
used by the security checks in `real.ts`. -/
def strStarts (s pre : String) : Bool := chLeads pre.data s.data

/-- Join segments with `/` between them. -/
def segJoin : List String → String
  | [] => ""
  | [s] => s
  | s :: rest => s ++ "/" ++ segJoin rest

/-! ### Association-list maps (model of JS `Map`) -/

/-- Lookup in an association list (JS `Map.get`). -/
def alGet {β : Type} (l : List (String × β)) (k : String) : Option β :=
  match l with
  | [] => none
  | (k2, v) :: rest => if k2 = k then some v else alGet rest k

/-- Update/insert in an association list (JS `Map.set`). -/
def alSet {β : Type} (l : List (String × β)) (k : String) (v : β) :
    List (String × β) :=
  match l with
  | [] => [(k, v)]
  | (k2, v2) :: rest =>
    if k2 = k then (k, v) :: rest else (k2, v2) :: alSet rest k v

/-- Removal from an association list (JS `Map.delete`). -/
def alDel {β : Type} (l : List (String × β)) (k : String) :
    List (String × β) :=
  match l with
  | [] => []
  | (k2, v) :: rest => if k2 = k then alDel rest k else (k2, v) :: alDel rest k

/-! ### Node `path` module (posix), as used by `real.ts`

All call sites in the repository pass absolute, trailing-slash-free paths to
`path.resolve`, so `pathResolve` is modelled as normalization. -/

/-- Segment-level normalization: drops empty and `.` segments and resolves
`..` (a leading `..` of a relative path is kept; of an absolute path it is
dropped), as in Node's `path.posix.normalize`. `acc` holds the already
processed segments in reverse order. -/
def normSegsAux (abs : Bool) : List String → List String → List String
  | acc, [] => acc.reverse
  | acc, seg :: rest =>
    if seg = "" ∨ seg = "." then normSegsAux abs acc rest
    else if seg = ".." then
      match acc with
      | [] => if abs then normSegsAux abs [] rest
              else normSegsAux abs [".."] rest
      | top :: acc2 =>
        if top = ".." then normSegsAux abs (".." :: top :: acc2) rest
        else normSegsAux abs acc2 rest
    else normSegsAux abs (seg :: acc) rest

/-- Render normalized segments back to a path string. -/
def renderPath (abs : Bool) (segs : List String) : String :=
  match segs with
  | [] => if abs then "/" else "."
  | _ => (if abs then "/" else "") ++ segJoin segs

/-- The raw segments of a path string. -/
def segsOf (s : String) : List String := (chSplit '/' s.data).map String.mk

/-- Models `path.normalize` (posix) on the trailing-slash-free inputs this
codebase produces. -/
def pathNormalize (p : String) : String :=
  let abs := strStarts p "/"
  renderPath abs (normSegsAux abs [] (segsOf p))

/-- Models `path.join(a, b)` (posix): concatenate with a separator and
normalize; empty parts are skipped. -/
def pathJoin (a b : String) : String :=
  if a = "" then pathNormalize b
  else if b = "" then pathNormalize a
  else pathNormalize (a ++ "/" ++ b)

/-- Models `path.resolve(p)` for an absolute argument `p` (the only way the
repository invokes it: the workspace root and joins below it are absolute):
normalization with no trailing slash. -/
def pathResolve (p : String) : String := pathNormalize p

/-- Models `path.dirname` on normalized inputs. -/
def dirname (p : String) : String :=
  let abs := strStarts p "/"
  match ((segsOf p).filter (· ≠ "")).dropLast with
  | [] => if abs then "/" else "."
  | ds => (if abs then "/" else "") ++ segJoin ds

/-- Models `path.relative(src, dst)` (posix) for absolute `src`, `dst`:
drop the common segment prefix, then one `..` per remaining `src` segment
followed by the remaining `dst` segments. -/
def relSegs : List String → List String → List String
  | s :: ss, d :: ds =>
    if s = d then relSegs ss ds
    else (s :: ss).map (fun _ => "..") ++ d :: ds
  | s :: ss, [] => (s :: ss).map (fun _ => "..")
  | [], ds => ds

def pathRelative (src dst : String) : String :=
  let f := normSegsAux true [] (segsOf (pathResolve src))
  let t := normSegsAux true [] (segsOf (pathResolve dst))
  segJoin (relSegs f t)

/-- Genuine directory containment: `p` is the root itself or lies beneath it.
This is the reference meaning of "descendant of the workspace root" against
which the code's string-prefix checks are compared. -/
def isUnderRoot (root p : String) : Bool :=
  p = root || strStarts p (root ++ "/")

/-! ### `RealFileSystem` (src/server/src/fs/real.ts)

The class keeps two `Map`s (`fileVersions`, `fileLanguages`) next to the real
filesystem.  The filesystem is modelled as a map from absolute path to
content plus the set of directories created by `mkdir`. -/

structure Rfs where
  workspaceRoot : String
  fileVersions : List (String × Nat)
  fileLanguages : List (String × String)
  deriving DecidableEq, Repr

structure Fs where
  files : List (String × String)
  dirs : List String
  deriving DecidableEq, Repr

/-- Models `fs.mkdir(dir, { recursive: true })`: records the directory (parents are
implied; nothing in the claims inspects them). -/
def mkdirRec (fs : Fs) (d : String) : Fs :=
  if fs.dirs.contains d then fs else { fs with dirs := d :: fs.dirs }

/-- Models `new URL(uri).pathname` with the `catch` fallback of
`extractPathFromUri`: a string is treated as a parseable URL exactly when it
starts with `file://` (the only scheme this system produces); the WHATWG
parser then takes the component from the first `/` after the authority and
removes dot segments.  Any other string throws in the URL constructor and is
returned unchanged.  Percent-encoding is not modelled (never decoded by
`URL.pathname` either). -/
def dropToSlash : List Char → List Char
  | [] => ['/']
  | c :: cs => if c = '/' then c :: cs else dropToSlash cs

def extractPathFromUri (uri : String) : String :=
  if strStarts uri "file://" then
    let tail := dropToSlash (uri.data.drop 7)
    renderPath true (normSegsAux true [] ((chSplit '/' tail).map String.mk))
  else uri

/-- Models `normalizePath`: `replace(/^[/\\]+/, '')` (drop every leading separator)
then `path.normalize`. -/
def stripLeadingSeps : List Char → List Char
  | [] => []
  | c :: cs => if c = '/' ∨ c = '\\' then stripLeadingSeps cs else c :: cs

def rfsNormalizePath (raw : String) : String :=
  pathNormalize (String.mk (stripLeadingSeps raw.data))

/-- Models `RealFileSystem.uriToPath`. -/
def uriToPath (root uri : String) : String :=
  pathJoin root (rfsNormalizePath (extractPathFromUri uri))

/-- Models `RealFileSystem.pathToUri` (posix host: no backslash replacement
needed). -/
def pathToUri (root p : String) : String :=
  if strStarts p root then "file:///" ++ pathRelative root p
  else "file:///" ++ p

/-- Models `path.extname(uri)`: the basename's suffix from its last `.`, empty when
that `.` is the first character.  Helper returns the suffix from the last
`.` of the chunk, if any. -/
def extAux : List Char → Option (List Char)
  | [] => none
  | c :: rest =>
    match extAux rest with
    | some e => some e
    | none => if c = '.' then some (c :: rest) else none

def extname (p : String) : String :=
  let b := ((chSplit '/' p.data).getLastD [])
  match extAux b with
  | some e => if e.length = b.length then "" else String.mk e
  | none => ""

/-- Models `inferLanguageId`: extension map with `plaintext` fallback. -/
def inferLanguageId (uri : String) : String :=
  match String.mk ((extname uri).data.map Char.toLower) with
  | ".go" => "go"
  | ".ts" => "typescript"
  | ".tsx" => "typescript"
  | ".js" => "javascript"
  | ".jsx" => "javascript"
  | _ => "plaintext"

/-- Models `createFile(uri, content, languageId)`: resolve through `uriToPath`,
`mkdir` the parent, write, set version 1 and the language.  The source has
no security check and no failure path on this route. -/
def createFile (rfs : Rfs) (fs : Fs) (uri content languageId : String) :
    Rfs × Fs :=
  let filePath := uriToPath rfs.workspaceRoot uri
  let fs2 := mkdirRec fs (dirname filePath)
  ({ rfs with
      fileVersions := alSet rfs.fileVersions uri 1,
      fileLanguages := alSet rfs.fileLanguages uri languageId },
   { fs2 with files := alSet fs2.files filePath content })

/-- Models `updateFile(uri, content)`: write, then version := (current or 0) + 1.
No security check on this route either. -/
def updateFile (rfs : Rfs) (fs : Fs) (uri content : String) : Rfs × Fs :=
  let filePath := uriToPath rfs.workspaceRoot uri
  ({ rfs with
      fileVersions :=
        alSet rfs.fileVersions uri ((alGet rfs.fileVersions uri).getD 0 + 1) },
   { fs with files := alSet fs.files filePath content })

structure FileEntry where
  uri : String
  content : String
  version : Nat
  languageId : String
  deriving DecidableEq, Repr

/-- Models `getFile(uri)`: read from disk (`undefined` when absent), version
defaults to 1, language falls back to the extension map. -/
def getFile (rfs : Rfs) (fs : Fs) (uri : String) : Option FileEntry :=
  (alGet fs.files (uriToPath rfs.workspaceRoot uri)).map fun content =>
    { uri := uri, content := content,
      version := (alGet rfs.fileVersions uri).getD 1,
      languageId := (alGet rfs.fileLanguages uri).getD (inferLanguageId uri) }

/-- Models `deleteFile(uri)`: unlink and forget metadata; a missing file makes
`unlink` throw, the catch swallows it and the metadata deletes are skipped. -/
def deleteFile (rfs : Rfs) (fs : Fs) (uri : String) : Rfs × Fs :=
  let filePath := uriToPath rfs.workspaceRoot uri
  if (alGet fs.files filePath).isSome then
    ({ rfs with
        fileVersions := alDel rfs.fileVersions uri,
        fileLanguages := alDel rfs.fileLanguages uri },
     { fs with files := alDel fs.files filePath })
  else (rfs, fs)

inductive FsError where
  | securityErr
  | opFailed (msg : String)
  deriving DecidableEq, Repr

/-- Models `s.replace(/^\//, '')`: drops at most one leading slash. -/
def stripOneSlash (s : String) : String :=
  match s.data with
  | '/' :: rest => String.mk rest
  | _ => s

/-- Models `renamePath(oldPath, newPath)`: join both arguments below the root,
`path.resolve` them, and refuse with the security error when either resolved
path fails the `startsWith(resolvedWorkspace)` test — before any filesystem
access.  Otherwise `mkdir` the target's parent, `fs.rename`, and transfer
tracked metadata from `pathToUri(old)` to `pathToUri(new)`. -/
def renamePath (rfs : Rfs) (fs : Fs) (oldPath newPath : String) :
    Except FsError (Rfs × Fs) :=
  let oldFull := pathJoin rfs.workspaceRoot (stripOneSlash oldPath)
  let newFull := pathJoin rfs.workspaceRoot (stripOneSlash newPath)
  let resolvedOld := pathResolve oldFull
  let resolvedNew := pathResolve newFull
  let resolvedWorkspace := pathResolve rfs.workspaceRoot
  if !(strStarts resolvedOld resolvedWorkspace)
      || !(strStarts resolvedNew resolvedWorkspace) then
    .error .securityErr
  else
    let fs2 := mkdirRec fs (dirname newFull)
    match alGet fs2.files resolvedOld with
    | none => .error (.opFailed "rename")
    | some content =>
      let fs3 := { fs2 with
        files := alSet (alDel fs2.files resolvedOld) resolvedNew content }
      let oldUri := pathToUri rfs.workspaceRoot resolvedOld
      let newUri := pathToUri rfs.workspaceRoot resolvedNew
      let rfs2 :=
        if (alGet rfs.fileVersions oldUri).isSome then
          let version := alGet rfs.fileVersions oldUri
          let languageId := alGet rfs.fileLanguages oldUri
          let v2 := alDel rfs.fileVersions oldUri
          let l2 := alDel rfs.fileLanguages oldUri
          { rfs with
            fileVersions :=
              match version with
              | some v => alSet v2 newUri v
              | none => v2,
            fileLanguages :=
              match languageId with
              | some l => alSet l2 newUri l
              | none => l2 }
        else rfs
      .ok (rfs2, fs3)

deriving instance DecidableEq for Except

/-! ### `LSPProxy` document handlers (src/server/src/lsp/proxy.ts)

`handleDidOpen` / `handleDidChange` run under the per-URI lock; their bodies
mutate the store and emit one notification to the analyzer.  Analyzer
acquisition (`getOrCreateClient`) is modelled by its observable contract
here — it succeeds for a configured language and throws otherwise — and in
full by the manager state machine below. -/

structure Position where
  line : Nat
  character : Nat
  deriving DecidableEq, Repr

structure Range where
  start : Position
  stop : Position
  deriving DecidableEq, Repr

/-- An LSP content change: full-text replacement or an incremental edit.
Both carry a `text` field, so the handler's `'text' in lastChange` test is
true for either shape. -/
inductive ContentChange where
  | full (text : String)
  | incr (range : Range) (text : String)
  deriving DecidableEq, Repr

def changeText : ContentChange → String
  | .full t => t
  | .incr _ t => t

/-- What the proxy forwards to an analyzer. -/
inductive Note where
  | didOpenN (uri : String) (languageId : String) (version : Int) (text : String)
  | didChangeN (uri : String) (version : Int) (changes : List ContentChange)
  | didCloseN (uri : String)
  deriving DecidableEq, Repr

def supportedLangs : List String := ["go", "typescript", "javascript"]

/-- Result of one proxy handler: the store after the body, the analyzer
notifications it emitted, and the error surfaced to `handleMessage`'s catch
(if any).  Errors can follow state changes, as in the source. -/
structure HandlerOut where
  rfs : Rfs
  fs : Fs
  notes : List Note
  err : Option String
  deriving DecidableEq, Repr

/-- Models `handleDidOpen`: `createFile`, then acquire the analyzer for the given
language and forward `didOpen` with the real-path URI. -/
def proxyDidOpen (rfs : Rfs) (fs : Fs) (uri text languageId : String)
    (version : Int) : HandlerOut :=
  let (rfs2, fs2) := createFile rfs fs uri text languageId
  let filePath := uriToPath rfs2.workspaceRoot uri
  if supportedLangs.contains languageId then
    ⟨rfs2, fs2, [.didOpenN ("file://" ++ filePath) languageId version text], none⟩
  else
    ⟨rfs2, fs2, [], some ("Unsupported language: " ++ languageId)⟩

/-- Models `handleDidChange`: when the change list is nonempty, write the **last**
change's `text` as the whole file (every change shape has `text`); then read
the file back and forward a single full-content change. A missing file after
the write step only logs a warning. -/
def proxyDidChange (rfs : Rfs) (fs : Fs) (uri : String) (version : Int)
    (contentChanges : List ContentChange) : HandlerOut :=
  let (rfs2, fs2) :=
    match contentChanges.getLast? with
    | some lastChange => updateFile rfs fs uri (changeText lastChange)
    | none => (rfs, fs)
  match getFile rfs2 fs2 uri with
  | none => ⟨rfs2, fs2, [], none⟩
  | some file =>
    if supportedLangs.contains file.languageId then
      let filePath := uriToPath rfs2.workspaceRoot uri
      ⟨rfs2, fs2,
        [.didChangeN ("file://" ++ filePath) version [.full file.content]],
        none⟩
    else
      ⟨rfs2, fs2, [], some ("Unsupported language: " ++ file.languageId)⟩

/-! #### Specification semantics of `didChange`

The spec mandates that the stored text become "the full new content": the
document that results from applying the client's content changes in order
(LSP semantics).  This definition follows the spec's words, for comparison
with the handler above. -/

/-- Byte offset of an LSP position in a text split into lines (clamped to
the line/text end, as LSP prescribes). -/
def offAux : List (List Char) → Nat → Nat → Nat
  | [], _, _ => 0
  | l :: _, 0, c => min c l.length
  | l :: ls, n + 1, c => l.length + 1 + offAux ls n c

def posOffset (doc : String) (p : Position) : Nat :=
  offAux (chSplit '\n' doc.data) p.line p.character

/-- Apply one LSP content change to a document. -/
def specApplyChange (doc : String) : ContentChange → String
  | .full t => t
  | .incr r t =>
    String.mk (doc.data.take (posOffset doc r.start))
      ++ t ++ String.mk (doc.data.drop (posOffset doc r.stop))

/-- The "full new content" after a `didChange`, per the spec. -/
def specApplyChanges (doc : String) (cs : List ContentChange) : String :=
  cs.foldl specApplyChange doc

/-! ### Transport server and index.ts handlers

`LSPWebSocketServer` (src/server/src/transport/websocket.ts) plus the
handlers registered in src/server/src/index.ts. -/

/-- The WebSocketServer options passed in the constructor: `{ server, path }`
only — in particular no `maxPayload` frame-size ceiling is configured. -/
def wssMaxPayload : Option Nat := none

structure WsMsg where
  id : Option Int
  method : Option String
  deriving DecidableEq, Repr

/-- One inbound WebSocket frame: its byte length and its `JSON.parse`
outcome (`none` = parse failure). -/
structure Frame where
  byteLen : Nat
  parsed : Option WsMsg
  deriving DecidableEq, Repr

inductive WsAct where
  | dispatch (method : String) (msg : WsMsg)
  | sendErr (code : Int) (id : Option Int)
  | drop
  deriving DecidableEq, Repr

/-- The `ws.on('message')` path: parse, then `handleMessage` — route to the
registered handler for `message.method`, answer `-32601` for an unhandled
method carrying an id, ignore id-less unhandled and method-less messages.
Parse failure answers `-32700`.  The returned flag is whether the connection
is still open afterwards: no branch closes it.  The frame's byte length is
never consulted. -/
def processFrame (handlers : List String) (f : Frame) : WsAct × Bool :=
  match f.parsed with
  | none => (.sendErr (-32700) none, true)
  | some msg =>
    match msg.method with
    | none => (.drop, true)
    | some m =>
      if handlers.contains m then (.dispatch m msg, true)
      else
        match msg.id with
        | some i => (.sendErr (-32601) (some i), true)
        | none => (.drop, true)

/-- The methods index.ts registers via `wsServer.onMethod`. -/
def registeredMethods : List String :=
  ["initialize", "initialized", "textDocument/didOpen",
   "textDocument/didChange", "textDocument/didClose", "textDocument/didSave",
   "textDocument/completion", "textDocument/hover", "textDocument/definition",
   "textDocument/references"]

/-! #### The locally answered `initialize` response (index.ts) -/

structure CompletionOpts where
  resolveProvider : Bool
  triggerCharacters : List String
  deriving DecidableEq, Repr

/-- Capability fields of the local response; `documentFormattingProvider` is
`Option` because the source object may simply omit the key. -/
structure Caps where
  textDocumentSync : Nat
  completionProvider : CompletionOpts
  hoverProvider : Bool
  definitionProvider : Bool
  referencesProvider : Bool
  documentFormattingProvider : Option Bool
  deriving DecidableEq, Repr

structure SrvInfo where
  name : String
  version : String
  deriving DecidableEq, Repr

structure InitResult where
  capabilities : Caps
  serverInfo : SrvInfo
  deriving DecidableEq, Repr

/-- The object literal sent by the `initialize` handler in index.ts. -/
def initializeResult : InitResult :=
  { capabilities :=
      { textDocumentSync := 1,
        completionProvider :=
          { resolveProvider := false,
            triggerCharacters := [".", ":", "<", "\"", "/", "@"] },
        hoverProvider := true,
        definitionProvider := true,
        referencesProvider := true,
        documentFormattingProvider := none },
    serverInfo := { name := "online-editor-lsp-proxy", version := "1.0.0" } }

/-! #### Sessions, connect and disconnect (index.ts + websocket.ts) -/

structure Srv where
  wsClients : List Nat
  proxies : List Nat
  rfs : Rfs
  fs : Fs
  deriving DecidableEq, Repr

/-- The `textDocument/didOpen` handler of index.ts: create the client's
proxy if missing (and the socket still exists), then `proxy.handleMessage`. -/
def wsDidOpen (s : Srv) (cid : Nat) (uri text languageId : String)
    (version : Int) : Srv × List Note :=
  let proxies :=
    if s.proxies.contains cid then s.proxies
    else if s.wsClients.contains cid then cid :: s.proxies
    else s.proxies
  if proxies.contains cid then
    let out := proxyDidOpen s.rfs s.fs uri text languageId version
    ({ s with proxies := proxies, rfs := out.rfs, fs := out.fs }, out.notes)
  else ({ s with proxies := proxies }, [])

/-- Models `LSPWebSocketServer.handleDisconnect` on `ws.on('close')`: remove the
socket from `clients`, then run the registered disconnect handlers — index.ts
registers exactly one, `clientProxies.delete(clientId)`.  Nothing is
forwarded to any analyzer. -/
def srvDisconnect (s : Srv) (cid : Nat) : Srv × List Note :=
  ({ s with
      wsClients := s.wsClients.filter (· ≠ cid),
      proxies := s.proxies.filter (· ≠ cid) }, [])

/-! ### `LanguageServerManager` (src/server/src/lsp/manager.ts)

The manager keeps `clients : Map<languageId, ClientInfo>` and
`startingClients : Map<languageId, Promise<LanguageClient>>`.  JS runs the
body of `getOrCreateClient` synchronously from entry up to the first await —
which covers the map lookups, the rebind, and (for a fresh start) creating
the transport (spawning the child), publishing the start promise and
returning it.  That synchronous prologue is one atomic step here
(`stepEnter`); promise completions and timer/stop callbacks are separate
events.  Analyzer child processes are tracked in `procs` so that
"at most one analyzer process per languageId" is a statement about spawned
processes rather than about map shape. -/

/-- The host window bound at client creation: a `ServerWindow` holding the
WebSocket (identified by a number), or a `ConsoleWindow` when no connection
was supplied. -/
inductive Win where
  | serverW (conn : Nat)
  | consoleW
  deriving DecidableEq, Repr

/-- Modelled from the spec: `ServerWindow.setConnection` is invoked by the
rebind branch of `getOrCreateClient` (manager.ts line 86) but its definition
is absent from the checked-in `host.ts`; the spec requires rebinding to be
"atomic replacement of the receiver endpoint", i.e. subsequent
analyzer-originated notifications flow to the newly supplied socket. -/
def setConnection (w : Win) (c : Nat) : Win :=
  match w with
  | .serverW _ => .serverW c
  | .consoleW => .serverW c

/-- Models `ServerWindow.showMessage`/`publishDiagnostics` (host.ts): write the
notification to the bound socket when it is open; otherwise it falls back to
console logging (`none` here).  `ConsoleWindow` never reaches a socket. -/
def deliver (w : Win) (connOpen : Nat → Bool) (payload : String) :
    Option (Nat × String) :=
  match w with
  | .serverW c => if connOpen c then some (c, payload) else none
  | .consoleW => none

structure MClient where
  cid : Nat
  window : Win
  lastUsed : Nat
  deriving DecidableEq, Repr

/-- An in-flight start: the promise all coalesced callers await (`prom`),
the child process of the current attempt (`pid`), and the host window built
from the initiating caller's options. -/
structure StartRec where
  prom : Nat
  pid : Nat
  window : Win
  deriving DecidableEq, Repr

structure MState where
  clients : List (String × MClient)
  starting : List (String × StartRec)
  procs : List (String × Nat)
  fresh : Nat
  deriving DecidableEq, Repr

/-- What a `getOrCreateClient` caller gets from the synchronous prologue. -/
inductive CallRes where
  | resolved (cid : Nat)
  | awaits (prom : Nat)
  | failUnsupported
  deriving DecidableEq, Repr

def procRemove (l : List (String × Nat)) (lang : String) :
    List (String × Nat) :=
  l.filter (fun p => !(decide (p.1 = lang)))

def procCount (s : MState) (lang : String) : Nat :=
  s.procs.countP (fun p => decide (p.1 = lang))

/-- The synchronous prologue of `getOrCreateClient(languageId, options)`:
existing client → touch `lastUsed`, rebind the window when a connection is
supplied and the window is a `ServerWindow`, return the client; in-flight
start → return its promise; otherwise, for a configured language, spawn a
child, publish the start promise and await it; unsupported language →
throw. -/
def stepEnter (s : MState) (lang : String) (conn : Option Nat) (now : Nat) :
    MState × CallRes :=
  match alGet s.clients lang with
  | some info =>
    let w :=
      match conn, info.window with
      | some c, .serverW _ => setConnection info.window c
      | _, _ => info.window
    ({ s with clients := alSet s.clients lang ⟨info.cid, w, now⟩ },
     .resolved info.cid)
  | none =>
    match alGet s.starting lang with
    | some sr => (s, .awaits sr.prom)
    | none =>
      if supportedLangs.contains lang then
        let w := match conn with | some c => Win.serverW c | none => Win.consoleW
        ({ s with
            starting := alSet s.starting lang ⟨s.fresh, s.fresh, w⟩,
            procs := (lang, s.fresh) :: s.procs,
            fresh := s.fresh + 1 },
         .awaits s.fresh)
      else (s, .failUnsupported)

/-- Asynchronous manager events besides call entries: a failed start attempt
respawning inside the retry loop (same promise, new child), the start
promise resolving (`clients.set` + the creator's `finally` delete, which no
other event can interleave), the start promise rejecting after the retry
budget, and `stopClient` (idle timer or shutdown). -/
inductive MEv where
  | enter (lang : String) (conn : Option Nat) (now : Nat)
  | retrySpawn (lang : String)
  | finishOk (lang : String) (now : Nat)
  | finishFail (lang : String)
  | stop (lang : String)
  deriving DecidableEq, Repr

def stepEv (s : MState) : MEv → MState
  | .enter lang conn now => (stepEnter s lang conn now).1
  | .retrySpawn lang =>
    match alGet s.starting lang with
    | some sr =>
      { s with
          starting := alSet s.starting lang ⟨sr.prom, s.fresh, sr.window⟩,
          procs := (lang, s.fresh) :: procRemove s.procs lang,
          fresh := s.fresh + 1 }
    | none => s
  | .finishOk lang now =>
    match alGet s.starting lang with
    | some sr =>
      { s with
          clients := alSet s.clients lang ⟨sr.pid, sr.window, now⟩,
          starting := alDel s.starting lang }
    | none => s
  | .finishFail lang =>
    match alGet s.starting lang with
    | some _ =>
      { s with
          starting := alDel s.starting lang,
          procs := procRemove s.procs lang }
    | none => s
  | .stop lang =>
    match alGet s.clients lang with
    | some _ =>
      { s with
          clients := alDel s.clients lang,
          procs := procRemove s.procs lang }
    | none => s

def m0 : MState := ⟨[], [], [], 0⟩

def runM (evs : List MEv) : MState := evs.foldl stepEv m0

/-! ### `LSPProxy.withUriLock` (proxy.ts — the identical code also appears in
the older proxy revision)

```
const prev = this.uriLocks.get(uri) || Promise.resolve();
const current = prev.then(task);
this.uriLocks.set(uri, current);
try { result = await current; }
finally { if (this.uriLocks.get(uri) === current) this.uriLocks.delete(uri); }
```

For one URI, the map entry is the most recently chained promise.  A chained
promise `prev.then(task)` runs `task` only when `prev` fulfilled, and adopts
`prev`'s rejection otherwise.  Settled outcomes are a pure function of the
chain, so each record's eventual outcome is computed at enqueue time;
`settle i` models the `finally` of the caller that awaited promise `i`
(which can only clear the map entry if `i` is still the stored promise). -/

inductive Res where
  | ok (v : Nat)
  | err (e : Nat)
  deriving DecidableEq, Repr

/-- One chained promise: the outcome the task body would produce if run, the
chain predecessor (`none` = a fresh `Promise.resolve()`), whether the body
ran, and the promise's settled outcome. -/
structure TaskRec where
  body : Res
  prevIdx : Option Nat
  ran : Bool
  result : Res
  deriving DecidableEq, Repr

structure LockSt where
  tasks : List TaskRec
  entry : Option Nat
  deriving DecidableEq, Repr

def resultOf (ts : List TaskRec) : Option Nat → Res
  | none => .ok 0
  | some j =>
    match ts[j]? with
    | some r => r.result
    | none => .ok 0

inductive LEv where
  | enqueue (body : Res)
  | settle (i : Nat)
  deriving DecidableEq, Repr

def stepL (s : LockSt) : LEv → LockSt
  | .enqueue body =>
    let prev := s.entry
    let r0 : TaskRec :=
      match resultOf s.tasks prev with
      | .ok _ => ⟨body, prev, true, body⟩
      | .err e => ⟨body, prev, false, .err e⟩
    { tasks := s.tasks ++ [r0], entry := some s.tasks.length }
  | .settle i => if s.entry = some i then { s with entry := none } else s

def runL (evs : List LEv) : LockSt := evs.foldl stepL ⟨[], none⟩

/-- Relation `Behind ts j i`: task `j` sits on the chain at or behind task `i`
(reflexive-transitive closure of the `prevIdx` link). -/
inductive Behind (ts : List TaskRec) : Nat → Nat → Prop where
  | refl (i : Nat) : Behind ts i i
  | step (j k i : Nat) (r : TaskRec) (hg : ts[j]? = some r)
      (hp : r.prevIdx = some k) (h : Behind ts k i) : Behind ts j i

/-! ### Helper lemmas -/

theorem alGet_alSet {β : Type} (l : List (String × β)) (k k2 : String) (v : β) :
    alGet (alSet l k v) k2 = if k = k2 then some v else alGet l k2 := by
  induction l with
  | nil => simp [alGet, alSet]
  | cons hd tl ih =>
    obtain ⟨a, b⟩ := hd
    by_cases hak : a = k
    · subst hak
      by_cases hk2 : a = k2 <;> simp [alGet, alSet, hk2]
    · by_cases hk2 : a = k2
      · subst hk2
        have hne : ¬ k = a := fun h => hak h.symm
        simp [alGet, alSet, hak, hne]
      · simp [alGet, alSet, hak, hk2, ih]

theorem alGet_alDel {β : Type} (l : List (String × β)) (k k2 : String) :
    alGet (alDel l k) k2 = if k = k2 then none else alGet l k2 := by
  induction l with
  | nil => simp [alGet, alDel]
  | cons hd tl ih =>
    obtain ⟨a, b⟩ := hd
    by_cases hak : a = k
    · subst hak
      by_cases hk2 : a = k2
      · subst hk2; simp [alGet, alDel, ih]
      · have hne : ¬ a = k2 := hk2
        simp [alGet, alDel, ih, hne]
    · by_cases hk2 : a = k2
      · subst hk2
        have hne : ¬ k = a := fun h => hak h.symm
        simp [alGet, alDel, hak, hne]
      · simp [alGet, alDel, hak, hk2, ih]

theorem countP_procRemove (l : List (String × Nat)) (lang lang2 : String) :
    (procRemove l lang).countP (fun p => decide (p.1 = lang2)) =
      if lang = lang2 then 0 else l.countP (fun p => decide (p.1 = lang2)) := by
  by_cases h : lang = lang2
  · subst h
    rw [if_pos rfl]
    simp only [procRemove, List.countP_filter]
    rw [List.countP_eq_zero]
    intro a _
    simp
  · simp only [procRemove, List.countP_filter, if_neg h]
    apply List.countP_congr
    intro a _
    by_cases ha : a.1 = lang2
    · have h3 : ¬ lang2 = lang := fun hh => h hh.symm
      simp [ha, h3]
    · simp [ha]

/-! ### Manager invariant: at most one analyzer process per language -/

def MInv (s : MState) : Prop :=
  ∀ lang, procCount s lang ≤ 1 ∧
    (alGet s.clients lang = none → alGet s.starting lang = none →
      procCount s lang = 0)

theorem minv_m0 : MInv m0 := by
  intro lang
  constructor <;> simp [procCount, m0]

theorem minv_step (s : MState) (e : MEv) (hs : MInv s) : MInv (stepEv s e) := by
  cases e with
  | enter lang conn now =>
    simp only [stepEv, stepEnter]
    split
    next info h1 =>
      intro lang2
      refine ⟨by simpa [procCount] using (hs lang2).1, ?_⟩
      intro hc hst
      simp only [alGet_alSet] at hc
      by_cases hll : lang = lang2
      · simp [hll] at hc
      · simp only [if_neg hll] at hc
        simpa [procCount] using (hs lang2).2 hc (by simpa using hst)
    next h1 =>
      split
      next sr h2 => exact hs
      next h2 =>
        split
        next hsup =>
          intro lang2
          constructor
          · by_cases hll : lang = lang2
            · subst hll
              have h0 : procCount s lang = 0 := (hs lang).2 h1 h2
              simp only [procCount] at h0 ⊢
              simp [List.countP_cons, h0]
            · have := (hs lang2).1
              simp only [procCount] at this ⊢
              simp [List.countP_cons, hll, this]
          · intro hc hst
            simp only [alGet_alSet] at hst
            by_cases hll : lang = lang2
            · simp [hll] at hst
            · simp only [if_neg hll] at hst
              have h0 := (hs lang2).2 (by simpa using hc) hst
              simp only [procCount] at h0 ⊢
              simp [List.countP_cons, hll, h0]
        next hsup => exact hs
  | retrySpawn lang =>
    simp only [stepEv]
    split
    next sr h1 =>
      intro lang2
      constructor
      · by_cases hll : lang = lang2
        · subst hll
          simp [procCount, List.countP_cons, countP_procRemove]
        · have := (hs lang2).1
          simp only [procCount] at this ⊢
          simp [List.countP_cons, countP_procRemove, hll, this]
      · intro hc hst
        simp only [alGet_alSet] at hst
        by_cases hll : lang = lang2
        · simp [hll] at hst
        · simp only [if_neg hll] at hst
          have h0 := (hs lang2).2 (by simpa using hc) hst
          simp only [procCount] at h0 ⊢
          simp [List.countP_cons, countP_procRemove, hll, h0]
    next h1 => exact hs
  | finishOk lang now =>
    simp only [stepEv]
    split
    next sr h1 =>
      intro lang2
      refine ⟨by simpa [procCount] using (hs lang2).1, ?_⟩
      intro hc hst
      simp only [alGet_alSet] at hc
      by_cases hll : lang = lang2
      · simp [hll] at hc
      · simp only [if_neg hll] at hc
        simp only [alGet_alDel] at hst
        simp only [if_neg hll] at hst
        simpa [procCount] using (hs lang2).2 hc hst
    next h1 => exact hs
  | finishFail lang =>
    simp only [stepEv]
    split
    next sr h1 =>
      intro lang2
      constructor
      · by_cases hll : lang = lang2
        · subst hll
          simp [procCount, countP_procRemove]
        · have := (hs lang2).1
          simp only [procCount] at this ⊢
          simp [countP_procRemove, hll, this]
      · intro hc hst
        by_cases hll : lang = lang2
        · subst hll
          simp [procCount, countP_procRemove]
        · simp only [alGet_alDel] at hst
          simp only [if_neg hll] at hst
          have h0 := (hs lang2).2 (by simpa using hc) hst
          simp only [procCount] at h0 ⊢
          simp [countP_procRemove, hll, h0]
    next h1 => exact hs
  | stop lang =>
    simp only [stepEv]
    split
    next info h1 =>
      intro lang2
      constructor
      · by_cases hll : lang = lang2
        · subst hll
          simp [procCount, countP_procRemove]
        · have := (hs lang2).1
          simp only [procCount] at this ⊢
          simp [countP_procRemove, hll, this]
      · intro hc hst
        by_cases hll : lang = lang2
        · subst hll
          simp [procCount, countP_procRemove]
        · simp only [alGet_alDel] at hc
          simp only [if_neg hll] at hc
          have h0 := (hs lang2).2 hc (by simpa using hst)
          simp only [procCount] at h0 ⊢
          simp [countP_procRemove, hll, h0]
    next h1 => exact hs

theorem minv_fold (evs : List MEv) :
    ∀ s : MState, MInv s → MInv (evs.foldl stepEv s) := by
  induction evs with
  | nil => intro s hs; simpa using hs
  | cons e rest ih => intro s hs; exact ih _ (minv_step s e hs)

theorem minv_run (evs : List MEv) : MInv (runM evs) :=
  minv_fold evs m0 minv_m0

/-! ### Lock-chain invariant -/

/-- A record is coherent with its chain: the predecessor link points at an
earlier record, and the ran/result fields agree with the `then` semantics
applied to the predecessor's outcome. -/
def goodAt (ts : List TaskRec) (j : Nat) (r : TaskRec) : Prop :=
  (∀ k, r.prevIdx = some k → k < j) ∧
  (∀ v, resultOf ts r.prevIdx = .ok v → r.ran = true ∧ r.result = r.body) ∧
  (∀ e, resultOf ts r.prevIdx = .err e → r.ran = false ∧ r.result = .err e)

def WfL (ts : List TaskRec) : Prop :=
  ∀ j r, ts[j]? = some r → goodAt ts j r

/-- The map entry, when present, is the most recently chained promise. -/
def EIdx (s : LockSt) : Prop :=
  ∀ n, s.entry = some n → n + 1 = s.tasks.length

theorem resultOf_append (ts : List TaskRec) (r0 : TaskRec) (p : Option Nat)
    (hp : ∀ k, p = some k → k < ts.length) :
    resultOf (ts ++ [r0]) p = resultOf ts p := by
  cases p with
  | none => rfl
  | some j =>
    have hj := hp j rfl
    simp [resultOf, List.getElem?_append, hj]

theorem wfL_step (s : LockSt) (e : LEv) (h : WfL s.tasks ∧ EIdx s) :
    WfL (stepL s e).tasks ∧ EIdx (stepL s e) := by
  obtain ⟨hwf, hei⟩ := h
  cases e with
  | settle i =>
    simp only [stepL]
    split
    · exact ⟨hwf, fun n hn => by simp at hn⟩
    · exact ⟨hwf, hei⟩
  | enqueue body =>
    have hbound : ∀ k, s.entry = some k → k < s.tasks.length := by
      intro k hk
      have := hei k hk
      omega
    constructor
    · intro j r hj
      by_cases hlt : j < s.tasks.length
      · have hjt : (stepL s (.enqueue body)).tasks[j]? = s.tasks[j]? := by
          simp [stepL, List.getElem?_append, hlt]
        rw [hjt] at hj
        have hg := hwf j r hj
        have hgb : ∀ k, r.prevIdx = some k → k < s.tasks.length :=
          fun k hk => lt_trans (hg.1 k hk) hlt
        have hres : resultOf (stepL s (.enqueue body)).tasks r.prevIdx
            = resultOf s.tasks r.prevIdx := by
          simp only [stepL]
          exact resultOf_append s.tasks _ r.prevIdx hgb
        refine ⟨hg.1, ?_, ?_⟩
        · intro v hv
          exact hg.2.1 v (by rwa [hres] at hv)
        · intro e2 he2
          exact hg.2.2 e2 (by rwa [hres] at he2)
      · have hlen : j = s.tasks.length := by
          by_contra hne
          have hge : (stepL s (.enqueue body)).tasks.length ≤ j := by
            simp only [stepL, List.length_append, List.length_cons,
              List.length_nil]
            omega
          rw [List.getElem?_eq_none hge] at hj
          cases hj
        subst hlen
        have hres0 : resultOf (stepL s (.enqueue body)).tasks s.entry
            = resultOf s.tasks s.entry := by
          simp only [stepL]
          exact resultOf_append s.tasks _ s.entry hbound
        have hj2 : (stepL s (.enqueue body)).tasks[s.tasks.length]?
            = some (match resultOf s.tasks s.entry with
                    | .ok _ => (⟨body, s.entry, true, body⟩ : TaskRec)
                    | .err e => ⟨body, s.entry, false, .err e⟩) := by
          simp only [stepL]
          exact List.getElem?_concat_length _ _
        rw [hj2] at hj
        cases hres : resultOf s.tasks s.entry with
        | ok v =>
          rw [hres] at hj
          injection hj with hr
          subst hr
          refine ⟨hbound, ?_, ?_⟩
          · intro v2 _; exact ⟨rfl, rfl⟩
          · intro e2 he2
            rw [hres0, hres] at he2
            cases he2
        | err e0 =>
          rw [hres] at hj
          injection hj with hr
          subst hr
          refine ⟨hbound, ?_, ?_⟩
          · intro v2 hv2
            rw [hres0, hres] at hv2
            cases hv2
          · intro e2 he2
            rw [hres0, hres] at he2
            injection he2 with hee
            subst hee
            exact ⟨rfl, rfl⟩
    · intro n hn
      simp only [stepL] at hn ⊢
      injection hn with hnl
      subst hnl
      simp

theorem wfL_run (evs : List LEv) : WfL (runL evs).tasks ∧ EIdx (runL evs) := by
  have base : WfL (⟨[], none⟩ : LockSt).tasks ∧ EIdx (⟨[], none⟩ : LockSt) := by
    constructor
    · intro j r hj
      simp at hj
    · intro n hn
      simp at hn
  rw [runL]
  generalize hst : (⟨[], none⟩ : LockSt) = st at base
  clear hst
  induction evs generalizing st with
  | nil => simpa using base
  | cons e rest ih => exact ih _ (wfL_step st e base)

/-- A rejection at task `i` poisons everything chained behind it: the bodies
never run and every later caller settles with the same rejection. -/
theorem poisoned (ts : List TaskRec) (hwf : WfL ts) {j i : Nat}
    (hb : Behind ts j i) :
    ∀ (ri : TaskRec) (e : Nat), ts[i]? = some ri → ri.result = .err e →
      j = i ∨ ∃ r, ts[j]? = some r ∧ r.ran = false ∧ r.result = .err e := by
  induction hb with
  | refl i2 => exact fun ri e _ _ => Or.inl rfl
  | step j k i r hg hp h ih =>
    intro ri e hgi hre
    right
    have hkres : resultOf ts (some k) = .err e := by
      rcases ih ri e hgi hre with hki | ⟨rk, hgk, _, hresk⟩
      · subst hki
        simp [resultOf, hgi, hre]
      · simp [resultOf, hgk, hresk]
    have hgood := hwf j r hg
    have hout := hgood.2.2 e (by rwa [hp])
    exact ⟨r, hg, hout.1, hout.2⟩

/-! ### Store idempotence helpers -/

theorem alSet_alSet {β : Type} (l : List (String × β)) (k : String) (v : β) :
    alSet (alSet l k v) k v = alSet l k v := by
  induction l with
  | nil => simp [alSet]
  | cons hd tl ih =>
    obtain ⟨a, b⟩ := hd
    by_cases hak : a = k
    · simp [alSet, hak]
    · simp [alSet, hak, ih]

theorem mkdirRec_contains (fs : Fs) (d : String) :
    ((mkdirRec fs d).dirs.contains d) = true := by
  unfold mkdirRec
  split
  next h => exact h
  next h => simp

theorem mkdirRec_of_contains (fs : Fs) (d : String)
    (h : fs.dirs.contains d = true) : mkdirRec fs d = fs := by
  unfold mkdirRec
  rw [if_pos h]

theorem createFile_idem (rfs : Rfs) (fs : Fs) (uri text languageId : String) :
    createFile (createFile rfs fs uri text languageId).1
        (createFile rfs fs uri text languageId).2 uri text languageId
      = createFile rfs fs uri text languageId := by
  simp only [createFile]
  rw [mkdirRec_of_contains]
  · simp [Prod.mk.injEq, alSet_alSet]
  · exact mkdirRec_contains fs _

theorem contains_filter_ne (l : List Nat) (c : Nat) :
    ((l.filter (· ≠ c)).contains c) = false := by
  induction l with
  | nil => rfl
  | cons a tl ih =>
    by_cases h : a = c
    · subst h
      simp [List.filter_cons, ih]
    · simp [List.filter_cons, h, List.contains_cons, ih, Ne.symm h]

/-- The full new content after a change list ending in a full-text change is
that change's text, whatever came before. -/
theorem specApplyChanges_last_full (cs : List ContentChange) :
    ∀ (doc t : String), cs.getLast? = some (.full t) →
      specApplyChanges doc cs = t := by
  induction cs with
  | nil => intro doc t h; simp at h
  | cons c rest ih =>
    intro doc t h
    cases rest with
    | nil =>
      simp only [List.getLast?_singleton] at h
      injection h with hc
      subst hc
      rfl
    | cons c2 rest2 =>
      rw [List.getLast?_cons_cons] at h
      exact ih _ t h

/-! ## Claims -/

/-- C1: the claim says every store operation resolves to a descendant of the
workspace root or fails with a security error before any side effect — but
the URI route has no check at all: with root `/ws`, `createFile` on the
client-controlled URI `../evil.txt` resolves through `uriToPath` to
`/evil.txt`, outside the root (`normalizePath` keeps leading `..` and the
URL constructor rejects scheme-less strings, so the raw string reaches
`path.join`), and the write is performed there with no error. -/
theorem c1_createFile_escapes_root :
    uriToPath "/ws" "../evil.txt" = "/evil.txt"
    ∧ isUnderRoot "/ws" (uriToPath "/ws" "../evil.txt") = false
    ∧ createFile ⟨"/ws", [], []⟩ ⟨[], []⟩ "../evil.txt" "boom" "plaintext"
      = (⟨"/ws", [("../evil.txt", 1)], [("../evil.txt", "plaintext")]⟩,
         ⟨[("/evil.txt", "boom")], ["/"]⟩) := by
  decide

/-- C2 counterexample: a session on client 0 opens `file:///m.go` (one
`didOpen` reaches the analyzer), then its socket closes — and session
teardown forwards nothing at all, in particular zero `didClose` for the
opened URI instead of exactly one. -/
theorem c2_disconnect_sends_no_didClose :
    (wsDidOpen ⟨[0], [], ⟨"/ws", [], []⟩, ⟨[], []⟩⟩ 0 "file:///m.go"
        "package main" "go" 1).2
      = [.didOpenN "file:///ws/m.go" "go" 1 "package main"]
    ∧ (srvDisconnect
        (wsDidOpen ⟨[0], [], ⟨"/ws", [], []⟩, ⟨[], []⟩⟩ 0 "file:///m.go"
          "package main" "go" 1).1 0).2 = [] := by
  decide

/-- C2 amended: on socket close the transport removes the socket and the
registered disconnect handler drops the session's proxy; no `didClose` (or
any other analyzer notification) is forwarded and the workspace store is
untouched, so documents the session opened stay open from the analyzer's
point of view. -/
theorem c2_disconnect_teardown (s : Srv) (cid : Nat) :
    (srvDisconnect s cid).2 = []
    ∧ (srvDisconnect s cid).1.rfs = s.rfs
    ∧ (srvDisconnect s cid).1.fs = s.fs
    ∧ ((srvDisconnect s cid).1.wsClients.contains cid) = false
    ∧ ((srvDisconnect s cid).1.proxies.contains cid) = false := by
  refine ⟨rfl, rfl, rfl, ?_, ?_⟩
  · exact contains_filter_ne s.wsClients cid
  · exact contains_filter_ne s.proxies cid

/-- C2 witness: the amended teardown facts at a concrete session state. -/
theorem c2_witness :
    (srvDisconnect ⟨[0, 1], [0], ⟨"/ws", [], []⟩, ⟨[], []⟩⟩ 0).2 = []
    ∧ (srvDisconnect ⟨[0, 1], [0], ⟨"/ws", [], []⟩, ⟨[], []⟩⟩ 0).1.rfs
        = (⟨"/ws", [], []⟩ : Rfs)
    ∧ (srvDisconnect ⟨[0, 1], [0], ⟨"/ws", [], []⟩, ⟨[], []⟩⟩ 0).1.fs
        = (⟨[], []⟩ : Fs)
    ∧ ((srvDisconnect ⟨[0, 1], [0], ⟨"/ws", [], []⟩, ⟨[], []⟩⟩
          0).1.wsClients.contains 0) = false
    ∧ ((srvDisconnect ⟨[0, 1], [0], ⟨"/ws", [], []⟩, ⟨[], []⟩⟩
          0).1.proxies.contains 0) = false :=
  c2_disconnect_teardown ⟨[0, 1], [0], ⟨"/ws", [], []⟩, ⟨[], []⟩⟩ 0

/-- C3 counterexample: open → change → open again on the same URI: the store
records versions 1, 2, then 1 — a repeated `didOpen` stores version 1
(`createFile` always does), not the last stored value, so the per-URI
version decreases. -/
theorem c3_version_decreases_on_reopen :
    alGet (proxyDidChange
        (proxyDidOpen ⟨"/ws", [], []⟩ ⟨[], []⟩ "file:///a.go" "package a"
          "go" 1).rfs
        (proxyDidOpen ⟨"/ws", [], []⟩ ⟨[], []⟩ "file:///a.go" "package a"
          "go" 1).fs
        "file:///a.go" 2 [.full "package b"]).rfs.fileVersions "file:///a.go"
      = some 2
    ∧ alGet (proxyDidOpen
        (proxyDidChange
          (proxyDidOpen ⟨"/ws", [], []⟩ ⟨[], []⟩ "file:///a.go" "package a"
            "go" 1).rfs
          (proxyDidOpen ⟨"/ws", [], []⟩ ⟨[], []⟩ "file:///a.go" "package a"
            "go" 1).fs
          "file:///a.go" 2 [.full "package b"]).rfs
        (proxyDidChange
          (proxyDidOpen ⟨"/ws", [], []⟩ ⟨[], []⟩ "file:///a.go" "package a"
            "go" 1).rfs
          (proxyDidOpen ⟨"/ws", [], []⟩ ⟨[], []⟩ "file:///a.go" "package a"
            "go" 1).fs
          "file:///a.go" 2 [.full "package b"]).fs
        "file:///a.go" "package c" "go" 3).rfs.fileVersions "file:///a.go"
      = some 1 := by
  decide

/-- C3 amended: `createFile` (the store mutation of `didOpen`) is idempotent
for fixed arguments and always stores version 1; a `didChange` with a
nonempty change list stores exactly the previous version + 1, and no
`didChange` ever decreases the stored version.  Hence repeated `didOpen` is
idempotent only when no `didChange` intervened: after one, re-opening resets
the version to 1, which is a decrease. -/
theorem c3_version_dynamics (rfs : Rfs) (fs : Fs) (uri text languageId : String)
    (version : Int) (c : ContentChange) (cs cs2 : List ContentChange) :
    createFile (createFile rfs fs uri text languageId).1
        (createFile rfs fs uri text languageId).2 uri text languageId
      = createFile rfs fs uri text languageId
    ∧ alGet ((createFile rfs fs uri text languageId).1).fileVersions uri
        = some 1
    ∧ alGet ((proxyDidChange rfs fs uri version (c :: cs)).rfs).fileVersions
          uri
        = some ((alGet rfs.fileVersions uri).getD 0 + 1)
    ∧ (alGet rfs.fileVersions uri).getD 0
        ≤ (alGet ((proxyDidChange rfs fs uri version cs2).rfs).fileVersions
            uri).getD 0 := by
  refine ⟨createFile_idem rfs fs uri text languageId, ?_, ?_, ?_⟩
  · simp [createFile, alGet_alSet]
  · cases hgl : (c :: cs).getLast? with
    | none => simp at hgl
    | some lastc =>
      simp only [proxyDidChange, hgl]
      split <;> simp [updateFile, alGet_alSet]
      next f hf =>
        split <;> simp [updateFile, alGet_alSet]
  · cases cs2 with
    | nil =>
      simp only [proxyDidChange, List.getLast?_nil]
      split <;> first
        | exact le_refl _
        | (split <;> exact le_refl _)
    | cons c2 rest =>
      cases hgl : (c2 :: rest).getLast? with
      | none => simp at hgl
      | some lastc =>
        simp only [proxyDidChange, hgl]
        split
        next hf => simp [updateFile, alGet_alSet]
        next f hf =>
          split <;> simp [updateFile, alGet_alSet]

/-- C4: along every event trace of the manager, at most one analyzer child
process is alive per languageId; and whenever a start for a language is in
flight (no stored client, an entry in `startingClients`), any further
`getOrCreateClient` entry returns that same in-flight promise — so all
coalesced callers resolve to the same client reference — and changes
nothing, in particular it initiates no second spawn. -/
theorem c4_single_analyzer_and_coalescing (evs : List MEv) (lang : String) :
    procCount (runM evs) lang ≤ 1
    ∧ (∀ (sr : StartRec) (conn : Option Nat) (now : Nat),
        alGet (runM evs).clients lang = none →
        alGet (runM evs).starting lang = some sr →
        stepEnter (runM evs) lang conn now = (runM evs, .awaits sr.prom)) := by
  refine ⟨(minv_run evs lang).1, ?_⟩
  intro sr conn now h1 h2
  simp [stepEnter, h1, h2]

/-- C4 witness: after one call entered and spawned the `go` analyzer, a
second concurrent caller receives the same in-flight promise and the state
is unchanged; the process count is within the bound. -/
theorem c4_witness :
    procCount (runM [MEv.enter "go" (some 0) 0]) "go" ≤ 1
    ∧ stepEnter (runM [MEv.enter "go" (some 0) 0]) "go" (some 1) 5
        = (runM [MEv.enter "go" (some 0) 0], .awaits 0) :=
  ⟨(c4_single_analyzer_and_coalescing [MEv.enter "go" (some 0) 0] "go").1,
   (c4_single_analyzer_and_coalescing [MEv.enter "go" (some 0) 0] "go").2
     ⟨0, 0, Win.serverW 0⟩ (some 1) 5 (by decide) (by decide)⟩

/-- C5 counterexample: a `didChange` whose changes are a full-text change
followed by an incremental insertion.  The full new content (changes applied
in order) is `Xhello`, but the handler blindly stores the **last** change's
text `X` as the whole document and forwards `{text: "X"}` — not the full new
content. -/
theorem c5_didChange_not_full_apply :
    ((([ContentChange.full "hello",
        ContentChange.incr ⟨⟨0, 0⟩, ⟨0, 0⟩⟩ "X"] : List ContentChange).any
      fun c => match c with | .full _ => true | .incr _ _ => false) = true)
    ∧ specApplyChanges "init"
        [ContentChange.full "hello", ContentChange.incr ⟨⟨0, 0⟩, ⟨0, 0⟩⟩ "X"]
      = "Xhello"
    ∧ alGet (proxyDidChange ⟨"/ws", [("file:///a.ts", 1)],
          [("file:///a.ts", "typescript")]⟩ ⟨[("/ws/a.ts", "init")], []⟩
          "file:///a.ts" 2
          [ContentChange.full "hello",
           ContentChange.incr ⟨⟨0, 0⟩, ⟨0, 0⟩⟩ "X"]).fs.files
        (uriToPath "/ws" "file:///a.ts")
      = some "X"
    ∧ some "X" ≠ some (specApplyChanges "init"
        [ContentChange.full "hello",
         ContentChange.incr ⟨⟨0, 0⟩, ⟨0, 0⟩⟩ "X"]) := by
  decide

/-- C5 amended: the handler stores the text of the **last** content change
as the whole document and forwards exactly one `{text: stored content}`
change; this coincides with the full new content exactly when the last
change is a full-text change (then the earlier changes are irrelevant). -/
theorem c5_didChange_last_full (rfs : Rfs) (fs : Fs) (uri doc t : String)
    (version : Int) (cs : List ContentChange)
    (hlast : cs.getLast? = some (.full t)) :
    specApplyChanges doc cs = t
    ∧ alGet (proxyDidChange rfs fs uri version cs).fs.files
        (uriToPath rfs.workspaceRoot uri) = some t
    ∧ (∀ lang, alGet rfs.fileLanguages uri = some lang →
        supportedLangs.contains lang = true →
        (proxyDidChange rfs fs uri version cs).notes =
          [.didChangeN ("file://" ++ uriToPath rfs.workspaceRoot uri) version
            [.full t]]) := by
  refine ⟨specApplyChanges_last_full cs doc t hlast, ?_, ?_⟩
  · simp only [proxyDidChange, hlast, changeText]
    split <;> simp [updateFile, alGet_alSet]
    next f hf =>
      split <;> simp [updateFile, alGet_alSet]
  · intro lang hlang hsup
    simp only [proxyDidChange, hlast, changeText]
    have hget : getFile (updateFile rfs fs uri t).1 (updateFile rfs fs uri t).2
        uri = some
        { uri := uri, content := t,
          version := (alGet rfs.fileVersions uri).getD 0 + 1,
          languageId := lang } := by
      simp [getFile, updateFile, alGet_alSet, hlang]
    rw [hget]
    have hmem : lang ∈ supportedLangs := by simpa using hsup
    simp [hmem, updateFile]

/-- C5 witness: the amended statement at a concrete tracked typescript file
and a single full-text change. -/
theorem c5_witness :
    specApplyChanges "old" [ContentChange.full "new"] = "new"
    ∧ alGet (proxyDidChange ⟨"/ws", [("file:///a.ts", 1)],
          [("file:///a.ts", "typescript")]⟩ ⟨[("/ws/a.ts", "old")], []⟩
          "file:///a.ts" 2 [ContentChange.full "new"]).fs.files
        (uriToPath "/ws" "file:///a.ts") = some "new"
    ∧ (proxyDidChange ⟨"/ws", [("file:///a.ts", 1)],
          [("file:///a.ts", "typescript")]⟩ ⟨[("/ws/a.ts", "old")], []⟩
          "file:///a.ts" 2 [ContentChange.full "new"]).notes =
        [.didChangeN ("file://" ++ uriToPath "/ws" "file:///a.ts") 2
          [.full "new"]] := by
  have h := c5_didChange_last_full ⟨"/ws", [("file:///a.ts", 1)],
    [("file:///a.ts", "typescript")]⟩ ⟨[("/ws/a.ts", "old")], []⟩
    "file:///a.ts" "old" "new" 2 [ContentChange.full "new"] (by decide)
  exact ⟨h.1, h.2.1, h.2.2 "typescript" (by decide) (by decide)⟩

/-- C6 counterexample: with root `/ws`, renaming `a.ts` to
`../ws-evil/b.ts` resolves the destination to `/ws-evil/b.ts` — not inside
the workspace root — yet the string-prefix test `startsWith("/ws")` accepts
it: the call succeeds, the file is moved outside the root, a directory is
created outside the root, and the tracked metadata is rekeyed. -/
theorem c6_rename_prefix_escape :
    isUnderRoot "/ws" (pathResolve (pathJoin "/ws"
        (stripOneSlash "../ws-evil/b.ts"))) = false
    ∧ renamePath ⟨"/ws", [("file:///a.ts", 3)], [("file:///a.ts", "typescript")]⟩
        ⟨[("/ws/a.ts", "x")], ["/ws"]⟩ "a.ts" "../ws-evil/b.ts"
      = .ok (⟨"/ws", [("file:///../ws-evil/b.ts", 3)],
             [("file:///../ws-evil/b.ts", "typescript")]⟩,
             ⟨[("/ws-evil/b.ts", "x")], ["/ws-evil", "/ws"]⟩) := by
  decide

/-- C6 amended: the escape check of `renamePath` is a string-prefix test of
each resolved argument against the resolved root, applied independently to
source and destination; whenever either side fails it, the call fails with
the security error before any filesystem access or metadata change (the
`Except.error` carries no successor state: caller state is unchanged).
Sibling paths that extend the root's name (e.g. `/ws-evil` under root `/ws`)
pass the test even though they are outside the root. -/
theorem c6_rename_security_check (rfs : Rfs) (fs : Fs) (oldPath newPath : String)
    (h : strStarts (pathResolve (pathJoin rfs.workspaceRoot
            (stripOneSlash oldPath))) (pathResolve rfs.workspaceRoot) = false
       ∨ strStarts (pathResolve (pathJoin rfs.workspaceRoot
            (stripOneSlash newPath))) (pathResolve rfs.workspaceRoot) = false) :
    renamePath rfs fs oldPath newPath = .error .securityErr := by
  unfold renamePath
  rcases h with h | h <;> simp [h]

/-- C6 witness: `rename("a.ts", "../../etc/passwd")` resolves the
destination to `/etc/passwd`, failing the prefix test, and is refused. -/
theorem c6_witness :
    renamePath ⟨"/ws", [], []⟩ ⟨[("/ws/a.ts", "x")], []⟩ "a.ts"
        "../../etc/passwd" = .error .securityErr :=
  c6_rename_security_check ⟨"/ws", [], []⟩ ⟨[("/ws/a.ts", "x")], []⟩ "a.ts"
    "../../etc/passwd" (Or.inr (by decide))

/-- C7 counterexample: the locally answered `initialize` response does not
advertise `documentFormattingProvider` at all (the key is absent from the
capabilities object), contradicting the claimed `documentFormattingProvider
true`. -/
theorem c7_no_formatting_capability :
    initializeResult.capabilities.documentFormattingProvider ≠ some true := by
  decide

/-- C7 amended: the `initialize` response advertises textDocumentSync full
(1), the completion provider with the six trigger characters and
`resolveProvider false`, hover, definition and references providers, and the
serverInfo name/version — but no `documentFormattingProvider` (even though
the proxy routes `textDocument/formatting`, index.ts registers no WebSocket
handler for it and omits the capability). -/
theorem c7_initialize_capabilities :
    initializeResult.capabilities.textDocumentSync = 1
    ∧ initializeResult.capabilities.completionProvider.resolveProvider = false
    ∧ initializeResult.capabilities.completionProvider.triggerCharacters
        = [".", ":", "<", "\"", "/", "@"]
    ∧ initializeResult.capabilities.hoverProvider = true
    ∧ initializeResult.capabilities.definitionProvider = true
    ∧ initializeResult.capabilities.referencesProvider = true
    ∧ initializeResult.capabilities.documentFormattingProvider = none
    ∧ initializeResult.serverInfo
        = ⟨"online-editor-lsp-proxy", "1.0.0"⟩ := by
  decide

/-- C8: when `getOrCreateClient` finds an existing client whose host window
is a `ServerWindow` and the caller supplies a (new) WebSocket connection,
the window is rebound to that connection, and every subsequent
analyzer-originated notification (`showMessage`, `publishDiagnostics`) is
written to the new session's (open) socket.  (`ServerWindow.setConnection`
is modelled from the spec — see its definition.) -/
theorem c8_rebind_sink (s : MState) (lang : String) (c now : Nat)
    (info : MClient) (c0 : Nat) (oc : Nat → Bool) (payload : String)
    (hcl : alGet s.clients lang = some info)
    (hw : info.window = Win.serverW c0)
    (hopen : oc c = true) :
    alGet ((stepEnter s lang (some c) now).1).clients lang
      = some ⟨info.cid, Win.serverW c, now⟩
    ∧ deliver (Win.serverW c) oc payload = some (c, payload) := by
  constructor
  · simp only [stepEnter, hcl, hw, setConnection]
    simp [alGet_alSet]
  · simp [deliver, hopen]

/-- C8 witness: a running `go` analyzer bound to socket 0 is obtained by a
new session on socket 7; afterwards diagnostics delivery targets socket 7. -/
theorem c8_witness :
    alGet ((stepEnter ⟨[("go", ⟨0, Win.serverW 0, 0⟩)], [], [("go", 0)], 1⟩
          "go" (some 7) 9).1).clients "go"
      = some ⟨0, Win.serverW 7, 9⟩
    ∧ deliver (Win.serverW 7) (fun _ => true) "diag" = some (7, "diag") :=
  c8_rebind_sink ⟨[("go", ⟨0, Win.serverW 0, 0⟩)], [], [("go", 0)], 1⟩ "go" 7 9
    ⟨0, Win.serverW 0, 0⟩ 0 (fun _ => true) "diag" (by decide) (by decide) rfl

/-- C9 counterexample: a 17 MiB frame (above the claimed 16 MiB ceiling)
that parses to an `initialize` request is dispatched to its handler like any
other message — it is not rejected with `-32600` (and the connection stays
open, but not because of any size check: none exists). -/
theorem c9_oversized_frame_dispatched :
    16 * 1048576 < 17 * 1048576
    ∧ processFrame registeredMethods
        ⟨17 * 1048576, some ⟨some 1, some "initialize"⟩⟩
      = (.dispatch "initialize" ⟨some 1, some "initialize"⟩, true)
    ∧ (processFrame registeredMethods
        ⟨17 * 1048576, some ⟨some 1, some "initialize"⟩⟩).1
      ≠ .sendErr (-32600) (some 1) := by
  refine ⟨by norm_num, by decide, by decide⟩

/-- C9 amended: the server configures no frame-size ceiling (`maxPayload` is
not passed to the WebSocketServer) and the message path never consults the
frame's byte length: processing is identical for any two sizes of the same
payload.  Unparseable frames get `-32700`; no branch emits `-32600` for
size, and no branch closes the connection. -/
theorem c9_no_frame_ceiling :
    wssMaxPayload = none
    ∧ (∀ (handlers : List String) (p : Option WsMsg) (n m : Nat),
        processFrame handlers ⟨n, p⟩ = processFrame handlers ⟨m, p⟩)
    ∧ (∀ (handlers : List String) (n : Nat),
        processFrame handlers ⟨n, none⟩ = (.sendErr (-32700) none, true))
    ∧ (∀ (handlers : List String) (f : Frame),
        (processFrame handlers f).2 = true) := by
  refine ⟨rfl, fun _ _ _ _ => rfl, fun _ _ => rfl, ?_⟩
  intro handlers f
  simp only [processFrame]
  split
  · rfl
  · split
    · rfl
    · split
      · rfl
      · split <;> rfl

/-- C10: for the per-URI promise chain of `withUriLock`, along any event
trace: (1) if the promise of task `i` settled with a rejection, every task
chained behind it settles with that same rejection and its body never ran
(each caller awaits its own chained promise, hence receives that rejection);
(2) the `finally` cleanup (`settle i`) removes the lock-map entry exactly
when `i` is the stored promise, which is always the last queued one; (3) a
task enqueued while the map holds no entry chains onto a fresh resolved
promise: its body runs and its promise settles with the body's outcome. -/
theorem c10_uri_lock_chain (evs : List LEv) :
    (∀ (i j e : Nat) (ri : TaskRec),
       (runL evs).tasks[i]? = some ri → ri.result = .err e →
       Behind (runL evs).tasks j i → j ≠ i →
       ∃ r, (runL evs).tasks[j]? = some r ∧ r.ran = false
         ∧ r.result = .err e)
    ∧ (∀ (i n : Nat), (runL evs).entry = some n →
         (((stepL (runL evs) (.settle i)).entry = none) ↔ i = n)
         ∧ n + 1 = (runL evs).tasks.length)
    ∧ (∀ body : Res, (runL evs).entry = none →
         (stepL (runL evs) (.enqueue body)).tasks[(runL evs).tasks.length]? =
           some ⟨body, none, true, body⟩) := by
  refine ⟨?_, ?_, ?_⟩
  · intro i j e ri hgi hre hb hne
    rcases poisoned (runL evs).tasks (wfL_run evs).1 hb ri e hgi hre with
      heq | hex
    · exact absurd heq hne
    · exact hex
  · intro i n hn
    refine ⟨?_, (wfL_run evs).2 n hn⟩
    constructor
    · intro hnone
      by_contra hne
      have hcond : ¬ ((runL evs).entry = some i) := by
        rw [hn]
        intro hc
        injection hc with hc2
        exact hne hc2.symm
      simp only [stepL, if_neg hcond] at hnone
      rw [hn] at hnone
      cases hnone
    · intro hin
      subst hin
      simp [stepL, hn]
  · intro body hnone
    simp only [stepL, hnone, resultOf]
    exact List.getElem?_concat_length _ _

/-- C10 witness: in the trace "task rejects, task queued behind", the second
task never ran and settled with the first task's rejection; settling the
last promise clears the entry; a task enqueued after the chain emptied runs
normally with its own outcome. -/
theorem c10_witness :
    (∃ r, (runL [LEv.enqueue (.err 5), LEv.enqueue (.ok 2)]).tasks[1]?
        = some r ∧ r.ran = false ∧ r.result = .err 5)
    ∧ (stepL (runL [LEv.enqueue (.err 5), LEv.enqueue (.ok 2)])
        (.settle 1)).entry = none
    ∧ (stepL (runL [LEv.enqueue (.err 5), LEv.enqueue (.ok 2), LEv.settle 1])
        (.enqueue (.ok 7))).tasks[2]? = some ⟨.ok 7, none, true, .ok 7⟩ := by
  refine ⟨?_, ?_, ?_⟩
  · exact (c10_uri_lock_chain [LEv.enqueue (.err 5), LEv.enqueue (.ok 2)]).1
      0 1 5 ⟨.err 5, none, true, .err 5⟩ (by decide) (by decide)
      (@Behind.step (runL [LEv.enqueue (.err 5), LEv.enqueue (.ok 2)]).tasks
        1 0 0 ⟨.ok 2, some 0, false, .err 5⟩ (by decide) (by decide)
        (@Behind.refl (runL [LEv.enqueue (.err 5),
          LEv.enqueue (.ok 2)]).tasks 0)) (by decide)
  · exact ((c10_uri_lock_chain [LEv.enqueue (.err 5),
      LEv.enqueue (.ok 2)]).2.1 1 1 (by decide)).1.mpr rfl
  · exact (c10_uri_lock_chain [LEv.enqueue (.err 5), LEv.enqueue (.ok 2),
      LEv.settle 1]).2.2 (.ok 7) (by decide)

end OnlineEditor
